import Mathlib

/-!
Verification of the natural-source EM simulation module
(`SimPEG/electromagnetics/natural_source/simulation.py`).

The module computes frequency-domain forward fields and adjoint-state
sensitivities (`Jvec`, `Jtvec`) for magnetotelluric surveys.  We shallowly
embed the numeric recursions of `BaseNSEMSimulation.Jvec` / `Jtvec`, the
per-variant system-derivative routines (`getADeriv`), the resource-level
behaviour of the `fields` methods (factorization caching and release), and
the small numeric helpers (`getJtJdiag` default probe count and
normalization).

Complex arithmetic is modelled by `CQ`, complex numbers with rational real
and imaginary parts: this keeps every definition computable while faithfully
reproducing numpy's complex algebra (floating-point rounding is out of
scope; identities are proved exactly).
-/

/-- Complex numbers with rational components: a computable model of the
complex double-precision scalars used by the simulation module. -/
@[ext] structure CQ where
  re : ℚ
  im : ℚ
deriving DecidableEq, Repr

namespace CQ

instance : Zero CQ := ⟨⟨0, 0⟩⟩
instance : One CQ := ⟨⟨1, 0⟩⟩
instance : Add CQ := ⟨fun a b => ⟨a.re + b.re, a.im + b.im⟩⟩
instance : Neg CQ := ⟨fun a => ⟨-a.re, -a.im⟩⟩
instance : Sub CQ := ⟨fun a b => ⟨a.re - b.re, a.im - b.im⟩⟩
instance : Mul CQ := ⟨fun a b => ⟨a.re * b.re - a.im * b.im, a.re * b.im + a.im * b.re⟩⟩

@[simp] theorem zero_re : (0 : CQ).re = 0 := rfl
@[simp] theorem zero_im : (0 : CQ).im = 0 := rfl
@[simp] theorem one_re : (1 : CQ).re = 1 := rfl
@[simp] theorem one_im : (1 : CQ).im = 0 := rfl
@[simp] theorem add_re (a b : CQ) : (a + b).re = a.re + b.re := rfl
@[simp] theorem add_im (a b : CQ) : (a + b).im = a.im + b.im := rfl
@[simp] theorem neg_re (a : CQ) : (-a).re = -a.re := rfl
@[simp] theorem neg_im (a : CQ) : (-a).im = -a.im := rfl
@[simp] theorem sub_re (a b : CQ) : (a - b).re = a.re - b.re := rfl
@[simp] theorem sub_im (a b : CQ) : (a - b).im = a.im - b.im := rfl
@[simp] theorem mul_re (a b : CQ) : (a * b).re = a.re * b.re - a.im * b.im := rfl
@[simp] theorem mul_im (a b : CQ) : (a * b).im = a.re * b.im + a.im * b.re := rfl

instance : CommRing CQ where
  add_assoc a b c := by ext <;> simp <;> ring
  zero_add a := by ext <;> simp
  add_zero a := by ext <;> simp
  add_comm a b := by ext <;> simp <;> ring
  mul_assoc a b c := by ext <;> simp <;> ring
  one_mul a := by ext <;> simp
  mul_one a := by ext <;> simp
  left_distrib a b c := by ext <;> simp <;> ring
  right_distrib a b c := by ext <;> simp <;> ring
  zero_mul a := by ext <;> simp
  mul_zero a := by ext <;> simp
  mul_comm a b := by ext <;> simp <;> ring
  neg_add_cancel a := by ext <;> simp
  sub_eq_add_neg a b := by ext <;> simp <;> ring
  nsmul := nsmulRec
  zsmul := zsmulRec

/-- Complex conjugation. -/
def conj (a : CQ) : CQ := ⟨a.re, -a.im⟩

@[simp] theorem conj_re (a : CQ) : a.conj.re = a.re := rfl
@[simp] theorem conj_im (a : CQ) : a.conj.im = -a.im := rfl

/-- Embedding of a real (rational) scalar as a complex scalar. -/
def ofQ (q : ℚ) : CQ := ⟨q, 0⟩

@[simp] theorem ofQ_re (q : ℚ) : (ofQ q).re = q := rfl
@[simp] theorem ofQ_im (q : ℚ) : (ofQ q).im = 0 := rfl

/-- The scalar `1j * omega(freq)` that multiplies every system derivative in
the module; `omegaf` stands for the real angular frequency `2 * pi * freq`
(kept as an abstract rational parameter since `pi` is irrational). -/
def iOmega (omegaf : ℚ) : CQ := ⟨0, omegaf⟩

@[simp] theorem iOmega_re (omegaf : ℚ) : (iOmega omegaf).re = 0 := rfl
@[simp] theorem iOmega_im (omegaf : ℚ) : (iOmega omegaf).im = omegaf := rfl

end CQ

/-!
## Sensitivity engine: shallow embedding of `BaseNSEMSimulation.Jvec` / `Jtvec`

Vectors are total functions out of `Fin`.  Model-space vectors are real
(`Fin nP → ℚ`), field-space vectors are complex (`Fin nU → CQ`), and each
receiver produces a real data block (`Fin mDim → ℚ`).  The collaborators the
base class dispatches to — the per-variant `getADeriv` / `getRHSDeriv`
routines (with the stored field `u_src` and the frequency folded in), the
cached factorization action `Ainv[nF]`, and the receivers' `evalDeriv` —
are fields of the structures below, exactly as the Python code receives
them through dynamic dispatch.
-/

/-- A receiver collaborator: its `component` tag and the two modes of its
`evalDeriv` (forward: field perturbation to real data block; adjoint: real
data block to field space). -/
structure ReceiverModel (nU mDim : ℕ) where
  component : String
  evalDerivFwd : (Fin nU → CQ) → (Fin mDim → ℚ)
  evalDerivAdj : (Fin mDim → ℚ) → (Fin nU → CQ)

/-- A source collaborator: its ordered receiver list. -/
structure SourceModel (nU mDim : ℕ) where
  receiver_list : List (ReceiverModel nU mDim)

/-- Everything `Jvec`/`Jtvec` use at one frequency `nF`: the cached
factorization action `self.Ainv[nF]`, the system/RHS derivative routines
with the stored field and the frequency folded in, and the sources at that
frequency. -/
structure FreqModel (nP nU mDim : ℕ) where
  Ainv : (Fin nU → CQ) → (Fin nU → CQ)
  getADeriv : (Fin nP → ℚ) → (Fin nU → CQ)
  getADerivAdj : (Fin nU → CQ) → (Fin nP → CQ)
  getRHSDeriv : (Fin nP → ℚ) → (Fin nU → CQ)
  getRHSDerivAdj : (Fin nU → CQ) → (Fin nP → CQ)
  sources : List (SourceModel nU mDim)

/-- Complex dot product without conjugation (numpy `dot` on complex arrays). -/
def dotC {n : ℕ} (a b : Fin n → CQ) : CQ := Matrix.dotProduct a b

/-- Real (rational) dot product. -/
def dotQ {n : ℕ} (a b : Fin n → ℚ) : ℚ := Matrix.dotProduct a b

/-- Pointwise embedding of a real vector into field space. -/
def ofQv {n : ℕ} (v : Fin n → ℚ) : Fin n → CQ := fun i => CQ.ofQ (v i)

/-- Pairing of a list of data blocks against a list of data blocks: the flat
inner product of two concatenated data vectors with matching layout. -/
def dotBlocks {mDim : ℕ} (ws js : List (Fin mDim → ℚ)) : ℚ :=
  (List.zipWith (fun a b => dotQ a b) ws js).sum

section SensitivityEngine

variable {nP nU mDim : ℕ}

/-- Lines 83-87 of `Jvec`: the field perturbation
`du_dm_v = Ainv[nF] * (-dA_dm_v + dRHS_dm_v)` at one frequency. -/
def du_dm_v (fm : FreqModel nP nU mDim) (v : Fin nP → ℚ) : Fin nU → CQ :=
  fm.Ainv (-fm.getADeriv v + fm.getRHSDeriv v)

/-- Lines 89-91 of `Jvec`: the per-source block of data contributions, one
block per receiver, `rx.evalDeriv(src, mesh, f, mkvc(du_dm_v))`. -/
def Jvec_src (fm : FreqModel nP nU mDim) (v : Fin nP → ℚ) (src : SourceModel nU mDim) :
    List (Fin mDim → ℚ) :=
  src.receiver_list.map (fun rx => rx.evalDerivFwd (du_dm_v fm v))

/-- Lines 70-95 of `Jvec`: concatenation of the per-receiver contributions in
survey order (frequency-major, then source, then receiver). -/
def Jvec (freqs : List (FreqModel nP nU mDim)) (v : Fin nP → ℚ) : List (Fin mDim → ℚ) :=
  freqs.flatMap (fun fm => fm.sources.flatMap (fun src => Jvec_src fm v src))

/-- Lines 124-133 of `Jtvec`: the receiver loop accumulating `PTv`.  A
"real"-component receiver adds its adjoint contribution, an
"imag"-component receiver adds the negated contribution, and any other tag
raises `Exception('Must be real or imag')`.  The data blocks `ws` are the
slices `v[src, rx]` of the incoming data vector in receiver order. -/
def accumPTv : (Fin nU → CQ) → List (ReceiverModel nU mDim) → List (Fin mDim → ℚ) →
    Except String (Fin nU → CQ)
  | acc, [], _ => .ok acc
  | acc, rx :: rxs, wr :: wrest =>
      if rx.component = "real" then
        accumPTv (acc + rx.evalDerivAdj wr) rxs wrest
      else if rx.component = "imag" then
        accumPTv (acc + -rx.evalDerivAdj wr) rxs wrest
      else
        .error "Must be real or imag"
  | _, _ :: _, [] => .error "data layout mismatch"

/-- Line 134 of `Jtvec`: `dA_duIT = mkvc(self.Ainv[nF] * PTv)` — the adjoint
field sensitivity is obtained by applying the cached factorization object
`Ainv[nF]` itself to the summed receiver vector. -/
def jtvec_dA_duIT (fm : FreqModel nP nU mDim) (PTv : Fin nU → CQ) : Fin nU → CQ :=
  fm.Ainv PTv

/-- Lines 122-143 of `Jtvec`: the per-source model-space contribution
`(-dA_dmT + dRHS_dmT).real`, or the first receiver error. -/
def Jtvec_src (fm : FreqModel nP nU mDim) (src : SourceModel nU mDim)
    (ws : List (Fin mDim → ℚ)) : Except String (Fin nP → ℚ) := do
  let PTv ← accumPTv 0 src.receiver_list ws
  let y := jtvec_dA_duIT fm PTv
  let dA_dmT := fm.getADerivAdj y
  let dRHS_dmT := fm.getRHSDerivAdj y
  .ok (fun i => (-dA_dmT i + dRHS_dmT i).re)

/-- The source loop at one frequency: `Jtv += du_dmT.real` per source. -/
def Jtvec_srcs (fm : FreqModel nP nU mDim) :
    List (SourceModel nU mDim) → List (List (Fin mDim → ℚ)) → (Fin nP → ℚ) →
    Except String (Fin nP → ℚ)
  | [], _, acc => .ok acc
  | src :: srcs, ws :: wss, acc => do
      let contrib ← Jtvec_src fm src ws
      Jtvec_srcs fm srcs wss (acc + contrib)
  | _ :: _, [], _ => .error "data layout mismatch"

/-- The frequency loop of `Jtvec`. -/
def Jtvec_loop : List (FreqModel nP nU mDim) → List (List (List (Fin mDim → ℚ))) →
    (Fin nP → ℚ) → Except String (Fin nP → ℚ)
  | [], _, acc => .ok acc
  | fm :: fms, wf :: wfs, acc => do
      let acc2 ← Jtvec_srcs fm fm.sources wf acc
      Jtvec_loop fms wfs acc2
  | _ :: _, [], _ => .error "data layout mismatch"

/-- Lines 97-146: `Jtvec`, starting from the zero accumulator
`Jtv = da.zeros(m.size)`.  The incoming data vector is given already
partitioned by (frequency, source, receiver), which is what the
`Data(self.survey, v)` wrapper does on line 115. -/
def Jtvec (freqs : List (FreqModel nP nU mDim)) (w : List (List (List (Fin mDim → ℚ)))) :
    Except String (Fin nP → ℚ) :=
  Jtvec_loop freqs w 0

end SensitivityEngine

/-!
## Dot-product helper lemmas
-/

theorem CQ.re_sum {α : Type} (s : Finset α) (f : α → CQ) :
    (∑ i ∈ s, f i).re = ∑ i ∈ s, (f i).re := by
  classical
  induction s using Finset.cons_induction with
  | empty => simp
  | cons a s ha ih => simp [Finset.sum_insert ha, ih]

theorem add_dotC {n : ℕ} (a b x : Fin n → CQ) :
    dotC (a + b) x = dotC a x + dotC b x := by
  simp [dotC, Matrix.add_dotProduct]

theorem neg_dotC {n : ℕ} (a x : Fin n → CQ) : dotC (-a) x = -dotC a x := by
  simp [dotC, Matrix.neg_dotProduct]

theorem zero_dotC {n : ℕ} (x : Fin n → CQ) : dotC 0 x = 0 := by
  simp [dotC, Matrix.zero_dotProduct]

theorem dotC_add {n : ℕ} (x a b : Fin n → CQ) :
    dotC x (a + b) = dotC x a + dotC x b := by
  simp [dotC, Matrix.dotProduct_add]

theorem dotC_neg {n : ℕ} (x a : Fin n → CQ) : dotC x (-a) = -dotC x a := by
  simp [dotC, Matrix.dotProduct_neg]

theorem add_dotQ {n : ℕ} (a b x : Fin n → ℚ) :
    dotQ (a + b) x = dotQ a x + dotQ b x := by
  simp [dotQ, Matrix.add_dotProduct]

/-- Pairing a real vector against the real parts of a complex vector is the
real part of the non-conjugating complex pairing. -/
theorem dotQ_re_eq {n : ℕ} (z : Fin n → CQ) (v : Fin n → ℚ) :
    dotQ (fun i => (z i).re) v = (dotC z (ofQv v)).re := by
  simp only [dotQ, dotC, Matrix.dotProduct, CQ.re_sum]
  refine Finset.sum_congr rfl (fun i _ => ?_)
  simp [ofQv, CQ.ofQ]

@[simp] theorem dotBlocks_nil_right {mDim : ℕ} (ws : List (Fin mDim → ℚ)) :
    dotBlocks ws [] = 0 := by
  cases ws <;> simp [dotBlocks]

@[simp] theorem dotBlocks_nil_left {mDim : ℕ} (js : List (Fin mDim → ℚ)) :
    dotBlocks [] js = 0 := by
  simp [dotBlocks]

theorem dotBlocks_cons {mDim : ℕ} (w j : Fin mDim → ℚ) (ws js : List (Fin mDim → ℚ)) :
    dotBlocks (w :: ws) (j :: js) = dotQ w j + dotBlocks ws js := by
  simp [dotBlocks]

theorem dotBlocks_append {mDim : ℕ} (ws1 ws2 js1 js2 : List (Fin mDim → ℚ))
    (h : ws1.length = js1.length) :
    dotBlocks (ws1 ++ ws2) (js1 ++ js2) = dotBlocks ws1 js1 + dotBlocks ws2 js2 := by
  simp [dotBlocks, List.zipWith_append _ _ _ _ _ h]

/-!
## Collaborator contracts (spec section 6)

The adjoint consistency of the base-class recursion is relative to the
contracts of the external collaborators it dispatches to: each receiver's
forward `evalDeriv` must pair with its adjoint mode under the recursion's
sign convention, and the per-frequency operators must be transpose pairs
under the non-conjugating complex pairing (the system matrix A is complex
symmetric, so its cached solve action is its own transpose).
-/

/-- A receiver is well formed when its component tag is "real" and forward
and adjoint `evalDeriv` are bilinear transposes of one another, or its tag
is "imag" and they are transposes up to the sign the recursion expects. -/
def RxContract {nU mDim : ℕ} (rx : ReceiverModel nU mDim) : Prop :=
  (rx.component = "real" ∧
    ∀ (wr : Fin mDim → ℚ) (x : Fin nU → CQ),
      dotQ wr (rx.evalDerivFwd x) = (dotC (rx.evalDerivAdj wr) x).re) ∨
  (rx.component = "imag" ∧
    ∀ (wr : Fin mDim → ℚ) (x : Fin nU → CQ),
      dotQ wr (rx.evalDerivFwd x) = -(dotC (rx.evalDerivAdj wr) x).re)

/-- Per-frequency operator contracts: the cached solve action is symmetric
under the non-conjugating pairing (A is complex symmetric), and the adjoint
modes of `getADeriv` / `getRHSDeriv` are the bilinear transposes of their
forward modes. -/
def FreqContract {nP nU mDim : ℕ} (fm : FreqModel nP nU mDim) : Prop :=
  (∀ y z : Fin nU → CQ, dotC (fm.Ainv y) z = dotC y (fm.Ainv z)) ∧
  (∀ (y : Fin nU → CQ) (v : Fin nP → ℚ),
    dotC (fm.getADerivAdj y) (ofQv v) = dotC y (fm.getADeriv v)) ∧
  (∀ (y : Fin nU → CQ) (v : Fin nP → ℚ),
    dotC (fm.getRHSDerivAdj y) (ofQv v) = dotC y (fm.getRHSDeriv v))

/-!
## Adjoint consistency of the recursion pair
-/

/-- The receiver loop succeeds under valid component tags, and the
accumulated vector pairs against any field vector as the sum of the
receivers' forward contributions. -/
theorem accumPTv_dot {nU mDim : ℕ} :
    ∀ (rxs : List (ReceiverModel nU mDim)) (ws : List (Fin mDim → ℚ)) (acc : Fin nU → CQ),
    (∀ rx ∈ rxs, RxContract rx) → rxs.length = ws.length →
    ∃ P, accumPTv acc rxs ws = .ok P ∧
      ∀ x, (dotC P x).re =
        (dotC acc x).re + dotBlocks ws (rxs.map (fun rx => rx.evalDerivFwd x))
  | [], ws, acc, _, _ => ⟨acc, rfl, fun x => by simp⟩
  | rx :: rxs, [], acc, _, hlen => by simp at hlen
  | rx :: rxs, wr :: wrest, acc, hc, hlen => by
      have hrest : ∀ r ∈ rxs, RxContract r := fun r hr => hc r (by simp [hr])
      have hlen2 : rxs.length = wrest.length := by simpa using hlen
      rcases hc rx (by simp) with ⟨hcomp, hpair⟩ | ⟨hcomp, hpair⟩
      · obtain ⟨P, hP, hdot⟩ :=
          accumPTv_dot rxs wrest (acc + rx.evalDerivAdj wr) hrest hlen2
        refine ⟨P, ?_, fun x => ?_⟩
        · simpa [accumPTv, hcomp] using hP
        · rw [hdot x]
          simp only [add_dotC, List.map_cons, dotBlocks_cons, CQ.add_re, hpair wr x]
          ring
      · obtain ⟨P, hP, hdot⟩ :=
          accumPTv_dot rxs wrest (acc + -rx.evalDerivAdj wr) hrest hlen2
        refine ⟨P, ?_, fun x => ?_⟩
        · simpa [accumPTv, hcomp] using hP
        · rw [hdot x]
          simp only [add_dotC, neg_dotC, List.map_cons, dotBlocks_cons, CQ.add_re,
            CQ.neg_re, hpair wr x]
          ring

/-- One source's `Jtvec` contribution pairs against the model vector exactly
as its `Jvec` data block pairs against the data slice. -/
theorem Jtvec_src_dot {nP nU mDim : ℕ} (fm : FreqModel nP nU mDim)
    (src : SourceModel nU mDim) (ws : List (Fin mDim → ℚ)) (v : Fin nP → ℚ)
    (hfm : FreqContract fm) (hrx : ∀ rx ∈ src.receiver_list, RxContract rx)
    (hlen : src.receiver_list.length = ws.length) :
    ∃ jts, Jtvec_src fm src ws = .ok jts ∧ dotQ jts v = dotBlocks ws (Jvec_src fm v src) := by
  obtain ⟨P, hP, hdot⟩ := accumPTv_dot src.receiver_list ws 0 hrx hlen
  obtain ⟨hA, hG, hR⟩ := hfm
  refine ⟨fun i => (-(fm.getADerivAdj (fm.Ainv P)) i + fm.getRHSDerivAdj (fm.Ainv P) i).re,
    ?_, ?_⟩
  · rw [Jtvec_src, hP]
    rfl
  · have hz : (fun i => (-(fm.getADerivAdj (fm.Ainv P)) i + fm.getRHSDerivAdj (fm.Ainv P) i).re)
        = fun i => ((-(fm.getADerivAdj (fm.Ainv P)) + fm.getRHSDerivAdj (fm.Ainv P)) i).re := by
      funext i; simp
    rw [hz, dotQ_re_eq, add_dotC, neg_dotC, hG, hR, ← dotC_neg, ← dotC_add, hA]
    have hfin := hdot (fm.Ainv (-fm.getADeriv v + fm.getRHSDeriv v))
    rw [zero_dotC] at hfin
    simpa [Jvec_src, du_dm_v] using hfin

/-- The source loop at one frequency accumulates adjoint-consistent
contributions. -/
theorem Jtvec_srcs_dot {nP nU mDim : ℕ} (fm : FreqModel nP nU mDim) (v : Fin nP → ℚ)
    (hfm : FreqContract fm) :
    ∀ {srcs : List (SourceModel nU mDim)} {wss : List (List (Fin mDim → ℚ))},
    List.Forall₂ (fun (src : SourceModel nU mDim) ws =>
      src.receiver_list.length = ws.length) srcs wss →
    (∀ src ∈ srcs, ∀ rx ∈ src.receiver_list, RxContract rx) →
    ∀ acc, ∃ res, Jtvec_srcs fm srcs wss acc = .ok res ∧
      dotQ res v = dotQ acc v + dotBlocks wss.flatten (srcs.flatMap (Jvec_src fm v)) := by
  intro srcs wss hshape
  induction hshape with
  | nil => exact fun _ acc => ⟨acc, rfl, by simp⟩
  | @cons src ws srcs wss hhead htail ih =>
      intro hrx acc
      obtain ⟨jts, hjts, hdots⟩ := Jtvec_src_dot fm src ws v hfm (hrx src (by simp)) hhead
      obtain ⟨res, hres, hdotr⟩ := ih (fun s hs => hrx s (by simp [hs])) (acc + jts)
      refine ⟨res, ?_, ?_⟩
      · simp only [Jtvec_srcs, hjts]
        exact hres
      · have hlen1 : ws.length = (Jvec_src fm v src).length := by
          simp [Jvec_src, ← hhead]
        rw [hdotr, add_dotQ, hdots, List.flatten_cons, List.flatMap_cons,
          dotBlocks_append _ _ _ _ hlen1]
        ring

/-- Data layout bookkeeping: a frequency's flattened data slices have as
many blocks as its `Jvec` contribution. -/
theorem flattenLengthEq {nP nU mDim : ℕ} (fm : FreqModel nP nU mDim) (v : Fin nP → ℚ) :
    ∀ {srcs : List (SourceModel nU mDim)} {wss : List (List (Fin mDim → ℚ))},
    List.Forall₂ (fun (src : SourceModel nU mDim) ws =>
      src.receiver_list.length = ws.length) srcs wss →
    wss.flatten.length = (srcs.flatMap (Jvec_src fm v)).length := by
  intro srcs wss h
  induction h with
  | nil => rfl
  | @cons src ws srcs wss hhead htail ih =>
      simp [List.flatMap_cons, Jvec_src, ← hhead, ih]

/-- The frequency loop of `Jtvec` accumulates adjoint-consistent
contributions. -/
theorem Jtvec_loop_dot {nP nU mDim : ℕ} (v : Fin nP → ℚ) :
    ∀ {freqs : List (FreqModel nP nU mDim)} {w : List (List (List (Fin mDim → ℚ)))},
    List.Forall₂ (fun fm wf => List.Forall₂ (fun (src : SourceModel nU mDim) ws =>
      src.receiver_list.length = ws.length) fm.sources wf) freqs w →
    (∀ fm ∈ freqs, FreqContract fm) →
    (∀ fm ∈ freqs, ∀ src ∈ fm.sources, ∀ rx ∈ src.receiver_list, RxContract rx) →
    ∀ acc, ∃ res, Jtvec_loop freqs w acc = .ok res ∧
      dotQ res v = dotQ acc v + dotBlocks w.flatten.flatten (Jvec freqs v) := by
  intro freqs w hshape
  induction hshape with
  | nil => exact fun _ _ acc => ⟨acc, rfl, by simp [Jvec]⟩
  | @cons fm wf fms wfs hhead htail ih =>
      intro hfc hrc acc
      obtain ⟨res1, hres1, hdot1⟩ :=
        Jtvec_srcs_dot fm v (hfc fm (by simp)) hhead (hrc fm (by simp)) acc
      obtain ⟨res, hres, hdot⟩ :=
        ih (fun g hg => hfc g (by simp [hg])) (fun g hg => hrc g (by simp [hg])) res1
      refine ⟨res, ?_, ?_⟩
      · simp only [Jtvec_loop, hres1]
        exact hres
      · rw [hdot, hdot1]
        simp only [Jvec, List.flatMap_cons, List.flatten_cons, List.flatten_append]
        rw [dotBlocks_append _ _ _ _ (flattenLengthEq fm v hhead)]
        ring

/-!
## System-derivative routines of the simulation variants

`Simulation1DPrimarySecondary.getADeriv` (lines 248-259) acts with
`1j * omega(freq) * dMfSigma_dm` (forward) or `1j * omega(freq) *
dMfSigma_dm.T` (adjoint), where `dMfSigma_dm = MfSigmaDeriv(u)` is the
product of the mesh's inner-product derivative at the field `u` and
`sigmaDeriv` (lines 207-213).  `Simulation3DPrimarySecondary.getADeriv`
(lines 385-416) stacks one `MeSigmaDeriv` column per polarization (forward)
or sums the two `MeSigmaDeriv` adjoints over the polarization halves of its
input (adjoint); `MeSigmaDeriv` itself is inherited from the FDEM base
class and is kept abstract here.  The scalar `omegaf` stands for the real
angular frequency `omega(freq) = 2*pi*freq`.
-/

/-- Entrywise conjugate transpose of a complex matrix (what the spec's
"adjoint (conjugate transpose)" denotes). -/
def conjT {m n : ℕ} (A : Matrix (Fin m) (Fin n) CQ) : Matrix (Fin n) (Fin m) CQ :=
  fun i j => (A j i).conj

/-- Lines 207-213: `MfSigmaDeriv(u) = mesh.getFaceInnerProductDeriv(sigma)(u)
* sigmaDeriv`, the product of two collaborator-supplied matrices. -/
def MfSigmaDeriv {k n p : ℕ} (meshD : Matrix (Fin k) (Fin n) CQ)
    (sigmaD : Matrix (Fin n) (Fin p) CQ) : Matrix (Fin k) (Fin p) CQ :=
  meshD * sigmaD

/-- Lines 248-259, `adjoint=False` branch:
`1j * omega(freq) * mkvc(dMfSigma_dm * v)`. -/
def getADeriv1D_fwd {k n p : ℕ} (omegaf : ℚ) (meshD : Matrix (Fin k) (Fin n) CQ)
    (sigmaD : Matrix (Fin n) (Fin p) CQ) (v : Fin p → CQ) : Fin k → CQ :=
  fun i => CQ.iOmega omegaf * (MfSigmaDeriv meshD sigmaD).mulVec v i

/-- Lines 248-259, `adjoint=True` branch:
`1j * omega(freq) * mkvc(dMfSigma_dm.T * v)` — note `.T`, numpy's plain
transpose without conjugation. -/
def getADeriv1D_adj {k n p : ℕ} (omegaf : ℚ) (meshD : Matrix (Fin k) (Fin n) CQ)
    (sigmaD : Matrix (Fin n) (Fin p) CQ) (v : Fin k → CQ) : Fin p → CQ :=
  fun i => CQ.iOmega omegaf * (MfSigmaDeriv meshD sigmaD).transpose.mulVec v i

/-- Modelled from the spec: the action the claim asserts for the adjoint
mode — the conjugate transpose of the forward operator `v ↦ iω·dM·v`,
applied to `v`.  Stated from the spec's words to compare with the code's
`getADeriv1D_adj`. -/
def specConjTransposeAction {k n p : ℕ} (omegaf : ℚ) (meshD : Matrix (Fin k) (Fin n) CQ)
    (sigmaD : Matrix (Fin n) (Fin p) CQ) (v : Fin k → CQ) : Fin p → CQ :=
  (conjT (fun i j => CQ.iOmega omegaf * MfSigmaDeriv meshD sigmaD i j)).mulVec v

/-- The inherited `MeSigmaDeriv(u, v, adjoint)` with the field argument
fixed: one forward/adjoint action pair per polarization (external
collaborator from the FDEM base class, outside this module). -/
structure MeSigmaDerivOps (nP nE : ℕ) where
  fwd : (Fin nP → CQ) → (Fin nE → CQ)
  adj : (Fin nE → CQ) → (Fin nP → CQ)

/-- Lines 385-416, `adjoint=False`: one `1j*omega*MeSigmaDeriv(u[sol], v)`
column per polarization, returned as the two columns of the `hstack`. -/
def getADeriv3D_fwd {nP nE : ℕ} (omegaf : ℚ) (ops0 ops1 : MeSigmaDerivOps nP nE)
    (v : Fin nP → CQ) : (Fin nE → CQ) × (Fin nE → CQ) :=
  (fun i => CQ.iOmega omegaf * ops0.fwd v i, fun i => CQ.iOmega omegaf * ops1.fwd v i)

/-- Lines 385-416, `adjoint=True`:
`1j*omega*(MeSigmaDeriv(u[sol0], v[:nE], adjoint) +
MeSigmaDeriv(u[sol1], v[nE:], adjoint))`, the input split into its two
polarization halves. -/
def getADeriv3D_adj {nP nE : ℕ} (omegaf : ℚ) (ops0 ops1 : MeSigmaDerivOps nP nE)
    (v : (Fin nE → CQ) × (Fin nE → CQ)) : Fin nP → CQ :=
  fun i => CQ.iOmega omegaf * (ops0.adj v.1 i + ops1.adj v.2 i)

/-!
## Resource-level embedding: factorization cache lifecycle

The value-level recursions above take the cached solve actions as given;
this state machine models where those factorizations come from and when
they are released.  A factorization is identified by the value of a global
factorization counter at its creation (each `self.Solver(A, ...)` call
increments it).
-/

/-- Observable resource state of a simulation object: the `model`
attribute, the `Ainv` attribute (absent until first assigned, then a
per-frequency list of slots), the number of `Solver` factorization calls
made so far, and the number of completed `fields` calls. -/
structure SimState where
  model : Option (List ℚ)
  ainvAttr : Option (List (Option ℕ))
  factCount : ℕ
  fieldsCalls : ℕ
deriving DecidableEq, Repr

/-- The loop `for i in range(num_frequencies): self.Ainv[i].clean()`
(lines 471-472): releases slots in order, stopping at the first failing
`clean` (whose exception aborts the loop); a `None` slot would raise
immediately.  Returns the released ids and the raised exception, if any. -/
def tryCleanSlots (cleanFails : ℕ → Bool) : List (Option ℕ) → List ℕ × Option String
  | [] => ([], none)
  | none :: _ => ([], some "AttributeError: NoneType object has no attribute clean")
  | some fid :: rest =>
      if cleanFails fid then ([], some "clean failed")
      else
        let r := tryCleanSlots cleanFails rest
        (fid :: r.1, r.2)

/-- Lines 469-474: `try: if self.Ainv[0] is not None: <clean loop> except:
pass`.  Returns the released ids and the exception the `except: pass`
swallows (`none` when nothing was raised). -/
def tryCleanAinv (cleanFails : ℕ → Bool) (attr : Option (List (Option ℕ))) :
    List ℕ × Option String :=
  match attr with
  | none => ([], some "AttributeError: object has no attribute Ainv")
  | some [] => ([], some "IndexError: list index out of range")
  | some (slot0 :: rest) =>
      match slot0 with
      | none => ([], none)
      | some _ => tryCleanSlots cleanFails (slot0 :: rest)

/-- `Simulation3DPrimarySecondary.fields` (lines 453-500): sets the model,
attempts the release of held factorizations (any exception swallowed by
the `except: pass`), reassigns `self.Ainv = [None]*nfreq`, then factorizes
and solves once per frequency, storing each new factorization in its slot.
Returns the new state together with the released ids and the swallowed
exception — data the Python code discards, surfaced here so theorems can
speak about it. -/
def fields3DState (nFreq : ℕ) (cleanFails : ℕ → Bool) (m : List ℚ) (s : SimState) :
    SimState × List ℕ × Option String :=
  let cr := tryCleanAinv cleanFails s.ainvAttr
  let newIds := (List.range nFreq).map (fun i => s.factCount + i + 1)
  ({ model := some m,
     ainvAttr := some (newIds.map some),
     factCount := s.factCount + nFreq,
     fieldsCalls := s.fieldsCalls + 1 }, cr)

/-- `Simulation1DPrimarySecondary.fields` (lines 285-317): sets the model
and factorizes once per frequency, but binds each factorization to the
local variable `Ainv` (line 306) — `self.Ainv` is never assigned, so the
attribute part of the state is untouched. -/
def fields1DState (nFreq : ℕ) (m : List ℚ) (s : SimState) : SimState :=
  { s with model := some m,
           factCount := s.factCount + nFreq,
           fieldsCalls := s.fieldsCalls + 1 }

/-- Reading `self.Ainv[nF]` for `nF in range(nFreq)` (line 87 of `Jvec`,
line 134 of `Jtvec`): the ids of the factorizations used, or the runtime
error raised when the attribute or a slot is missing. -/
def collectSlotIds : List (Option ℕ) → ℕ → Except String (List ℕ)
  | _, 0 => .ok []
  | [], _ + 1 => .error "IndexError: list index out of range"
  | none :: _, _ + 1 => .error "TypeError: unsupported operand for NoneType"
  | some fid :: rest, n + 1 => do
      let ids ← collectSlotIds rest n
      .ok (fid :: ids)

/-- The factorizations the `Jvec`/`Jtvec` frequency loop solves with: pure
reads of the `Ainv` slots — the loop contains no `Solver` call, so it can
never factorize. -/
def jvecUsedFactorizations (nFreq : ℕ) (s : SimState) : Except String (List ℕ) :=
  match s.ainvAttr with
  | none => .error "AttributeError: object has no attribute Ainv"
  | some slots => collectSlotIds slots nFreq

/-- Lines 64-68 of `Jvec` and 108-111 of `Jtvec` (identical): if no fields
object is supplied, run the variant's forward solve `self.fields(m)`, then
set `self.model = m`. -/
def sensitivityEntry (fieldsFn : List ℚ → SimState → SimState) (m : List ℚ)
    (fGiven : Bool) (s : SimState) : SimState :=
  let s1 := if fGiven then s else fieldsFn m s
  { s1 with model := some m }

/-!
## `getJtJdiag` helpers and the `Jtvec` accumulator shape
-/

/-- Lines 41-43: the probe count — the passed `k`, or
`int(self.survey.nD / 10)` when `k is None` (truncating division). -/
def getJtJdiagK (nD : ℕ) (k : Option ℕ) : ℕ :=
  match k with
  | some k0 => k0
  | none => nD / 10

/-- `np.max` over a nonempty vector (0 on the empty list, where numpy
raises). -/
def listMax : List ℚ → ℚ
  | [] => 0
  | [a] => a
  | a :: b :: rest => max a (listMax (b :: rest))

/-- Line 50: `JtJdiag = JtJdiag / np.max(JtJdiag)`, the normalization of
the stochastic diagonal estimate. -/
def normalizeJtJdiag (xs : List ℚ) : List ℚ :=
  xs.map (fun x => x / listMax xs)

/-- Line 124 as a shape: `PTv = np.zeros((self.mesh.nE, 2), dtype=complex)`,
stored here flattened to length `nE * 2` (the very layout line 135 reshapes
to). -/
def jtvecAccumInit (nE : ℕ) : List CQ := List.replicate (nE * 2) 0

/-- Elementwise `PTv += contribution` (lines 129/131): defined exactly when
the contribution fills the accumulator (receiver adjoint outputs are full
field-space arrays, so numpy's degenerate length-1/length-2 broadcasts do
not arise); a mismatched shape raises. -/
def addInto (acc contrib : List CQ) : Except String (List CQ) :=
  if contrib.length = acc.length then .ok (List.zipWith (fun a b => a + b) acc contrib)
  else .error "operands could not be broadcast together"

/-- The receiver accumulation of lines 124-133 at the shape level: fold the
per-receiver adjoint contributions into the `(nE, 2)` accumulator. -/
def jtvecAccumShapes (nE : ℕ) (contribs : List (List CQ)) : Except String (List CQ) :=
  contribs.foldlM addInto (jtvecAccumInit nE)

/-- Truth value of an `Except` computation completing without raising. -/
def exceptIsOk {α : Type} : Except String α → Bool
  | .ok _ => true
  | .error _ => false

/-!
## Concrete instances used by witnesses and counterexamples
-/

/-- A one-point "real"-component receiver satisfying its collaborator
contract. -/
def rxW : ReceiverModel 1 1 :=
  ⟨"real", fun x _ => (x 0).re, fun w _ => CQ.ofQ (w 0)⟩

/-- A one-point "imag"-component receiver satisfying its collaborator
contract. -/
def rxI : ReceiverModel 1 1 :=
  ⟨"imag", fun x _ => (x 0).im, fun w _ => ⟨0, w 0⟩⟩

/-- A receiver with an invalid component tag. -/
def rxB : ReceiverModel 1 1 :=
  ⟨"phase", fun _ _ => 0, fun _ _ => 0⟩

/-- A source holding the "real" receiver. -/
def srcW : SourceModel 1 1 := ⟨[rxW]⟩

/-- A source holding the invalid-tag receiver. -/
def srcB : SourceModel 1 1 := ⟨[rxB]⟩

/-- A one-dimensional frequency model with identity solve action and
transpose-consistent derivative operators. -/
def fmW : FreqModel 1 1 1 :=
  ⟨fun y => y, fun v _ => CQ.ofQ (v 0), fun y _ => y 0,
   fun _ _ => 0, fun _ _ => 0, [srcW]⟩

/-- The frequency model `fmW` with its source replaced by the invalid-tag
source. -/
def fmB : FreqModel 1 1 1 :=
  ⟨fun y => y, fun v _ => CQ.ofQ (v 0), fun y _ => y 0,
   fun _ _ => 0, fun _ _ => 0, [srcB]⟩

/-- A concrete data block. -/
def wBlk : Fin 1 → ℚ := fun _ => 2

/-- A concrete model-space vector. -/
def vMod : Fin 1 → ℚ := fun _ => 3

/-!
## Claim theorems
-/

/-- C1: adjoint consistency of the sensitivity pair — for every survey
structure, model perturbation `v` and data vector `w` (partitioned to the
survey layout), with the collaborator contracts of spec section 6 (receiver
forward/adjoint duality with the recursion's sign convention, symmetric
cached solve action, transpose-dual system and RHS derivatives), the inner
product of `w` with `Jvec`'s output equals the inner product of `Jtvec`'s
output with `v`, exactly. -/
theorem C1_adjoint_consistency {nP nU mDim : ℕ}
    (freqs : List (FreqModel nP nU mDim)) (w : List (List (List (Fin mDim → ℚ))))
    (v : Fin nP → ℚ)
    (hshape : List.Forall₂ (fun fm wf => List.Forall₂
      (fun (src : SourceModel nU mDim) ws => src.receiver_list.length = ws.length)
      fm.sources wf) freqs w)
    (hfc : ∀ fm ∈ freqs, FreqContract fm)
    (hrc : ∀ fm ∈ freqs, ∀ src ∈ fm.sources, ∀ rx ∈ src.receiver_list, RxContract rx) :
    ∃ jtv, Jtvec freqs w = .ok jtv ∧
      dotBlocks w.flatten.flatten (Jvec freqs v) = dotQ jtv v := by
  obtain ⟨res, hres, hdot⟩ := Jtvec_loop_dot v hshape hfc hrc 0
  refine ⟨res, hres, ?_⟩
  rw [hdot]
  simp [dotQ, Matrix.zero_dotProduct]

/-- Witness for C1: the adjoint identity instantiated on a concrete
one-frequency, one-source, one-receiver survey. -/
theorem C1_adjoint_consistency_witness :
    ∃ jtv, Jtvec [fmW] [[[wBlk]]] = .ok jtv ∧
      dotBlocks ([[[wBlk]]] : List (List (List (Fin 1 → ℚ)))).flatten.flatten
        (Jvec [fmW] vMod) = dotQ jtv vMod := by
  refine C1_adjoint_consistency [fmW] [[[wBlk]]] vMod ?_ ?_ ?_
  · refine List.Forall₂.cons ?_ List.Forall₂.nil
    exact List.Forall₂.cons rfl List.Forall₂.nil
  · intro fm hfm
    rcases List.mem_singleton.mp hfm with rfl
    refine ⟨fun y z => rfl, fun y v => ?_, fun y v => ?_⟩
    · simp [fmW, dotC, Matrix.dotProduct, ofQv]
    · simp [fmW, dotC, Matrix.dotProduct, ofQv]
  · intro fm hfm src hsrc rx hrx
    rcases List.mem_singleton.mp hfm with rfl
    rcases List.mem_singleton.mp hsrc with rfl
    rcases List.mem_singleton.mp hrx with rfl
    left
    refine ⟨rfl, fun wr x => ?_⟩
    simp [rxW, dotQ, dotC, Matrix.dotProduct, CQ.ofQ]

/-- A completed receiver loop visited every receiver, so each had a valid
component tag. -/
theorem accumPTv_ok_valid {nU mDim : ℕ} :
    ∀ (rxs : List (ReceiverModel nU mDim)) (ws : List (Fin mDim → ℚ))
      (acc P : Fin nU → CQ),
    accumPTv acc rxs ws = .ok P →
    ∀ rx ∈ rxs, rx.component = "real" ∨ rx.component = "imag"
  | [], _, _, _, _ => by simp
  | rx0 :: rxs, [], acc, P, h => by simp [accumPTv] at h
  | rx0 :: rxs, wr :: wrest, acc, P, h => by
      by_cases h1 : rx0.component = "real"
      · intro rx hrx
        rcases List.mem_cons.mp hrx with rfl | hm
        · exact Or.inl h1
        · have h2 : accumPTv (acc + rx0.evalDerivAdj wr) rxs wrest = .ok P := by
            simpa [accumPTv, h1] using h
          exact accumPTv_ok_valid rxs wrest _ P h2 rx hm
      · by_cases h2 : rx0.component = "imag"
        · intro rx hrx
          rcases List.mem_cons.mp hrx with rfl | hm
          · exact Or.inr h2
          · have h3 : accumPTv (acc + -rx0.evalDerivAdj wr) rxs wrest = .ok P := by
              simpa [accumPTv, h1, h2] using h
            exact accumPTv_ok_valid rxs wrest _ P h3 rx hm
        · exact absurd h (by simp [accumPTv, h1, h2])

/-- A successful per-source `Jtvec` contribution implies its receiver loop
completed. -/
theorem Jtvec_src_ok_valid {nP nU mDim : ℕ} (fm : FreqModel nP nU mDim)
    (src : SourceModel nU mDim) (ws : List (Fin mDim → ℚ)) (jts : Fin nP → ℚ)
    (h : Jtvec_src fm src ws = .ok jts) :
    ∀ rx ∈ src.receiver_list, rx.component = "real" ∨ rx.component = "imag" := by
  cases hacc : accumPTv 0 src.receiver_list ws with
  | error e => rw [Jtvec_src, hacc] at h; exact Except.noConfusion h
  | ok P => exact accumPTv_ok_valid _ _ _ _ hacc

/-- A successful source loop implies every source's receiver loop
completed. -/
theorem Jtvec_srcs_ok_valid {nP nU mDim : ℕ} (fm : FreqModel nP nU mDim) :
    ∀ (srcs : List (SourceModel nU mDim)) (wss : List (List (Fin mDim → ℚ)))
      (acc res : Fin nP → ℚ),
    Jtvec_srcs fm srcs wss acc = .ok res →
    ∀ src ∈ srcs, ∀ rx ∈ src.receiver_list,
      rx.component = "real" ∨ rx.component = "imag"
  | [], _, _, _, _ => by simp
  | src0 :: srcs, [], acc, res, h => Except.noConfusion h
  | src0 :: srcs, ws :: wss, acc, res, h => by
      cases hs : Jtvec_src fm src0 ws with
      | error e => rw [Jtvec_srcs, hs] at h; exact Except.noConfusion h
      | ok jts =>
          have hrest : Jtvec_srcs fm srcs wss (acc + jts) = .ok res := by
            rw [Jtvec_srcs, hs] at h; exact h
          intro src hsrc
          rcases List.mem_cons.mp hsrc with rfl | hm
          · exact Jtvec_src_ok_valid fm src ws jts hs
          · exact Jtvec_srcs_ok_valid fm srcs wss _ res hrest src hm

/-- A successful `Jtvec` frequency loop implies every visited receiver had
a valid component tag. -/
theorem Jtvec_loop_ok_valid {nP nU mDim : ℕ} :
    ∀ (freqs : List (FreqModel nP nU mDim)) (w : List (List (List (Fin mDim → ℚ))))
      (acc res : Fin nP → ℚ),
    Jtvec_loop freqs w acc = .ok res →
    ∀ fm ∈ freqs, ∀ src ∈ fm.sources, ∀ rx ∈ src.receiver_list,
      rx.component = "real" ∨ rx.component = "imag"
  | [], _, _, _, _ => by simp
  | fm0 :: fms, [], acc, res, h => Except.noConfusion h
  | fm0 :: fms, wf :: wfs, acc, res, h => by
      cases hs : Jtvec_srcs fm0 fm0.sources wf acc with
      | error e => rw [Jtvec_loop, hs] at h; exact Except.noConfusion h
      | ok acc2 =>
          have hrest : Jtvec_loop fms wfs acc2 = .ok res := by
            rw [Jtvec_loop, hs] at h; exact h
          intro fm hfm
          rcases List.mem_cons.mp hfm with rfl | hm
          · exact Jtvec_srcs_ok_valid fm fm.sources wf acc acc2 hs
          · exact Jtvec_loop_ok_valid fms wfs acc2 res hrest fm hm

/-- C5: in the `Jtvec` receiver loop, a "real"-component receiver's adjoint
contribution is added directly, an "imag"-component receiver's contribution
is negated before accumulation, and a receiver whose tag is neither makes
the loop raise `Must be real or imag`; consequently `Jtvec` completes
without raising only if every receiver in the survey carries a valid tag
(no silent default). -/
theorem C5_sign_convention_and_error {nP nU mDim : ℕ} :
    (∀ (rx : ReceiverModel nU mDim) (acc : Fin nU → CQ) (wr : Fin mDim → ℚ)
      (rxs : List (ReceiverModel nU mDim)) (wrest : List (Fin mDim → ℚ)),
      (rx.component = "real" →
        accumPTv acc (rx :: rxs) (wr :: wrest) =
          accumPTv (acc + rx.evalDerivAdj wr) rxs wrest) ∧
      (rx.component = "imag" →
        accumPTv acc (rx :: rxs) (wr :: wrest) =
          accumPTv (acc + -rx.evalDerivAdj wr) rxs wrest) ∧
      (rx.component ≠ "real" → rx.component ≠ "imag" →
        accumPTv acc (rx :: rxs) (wr :: wrest) = .error "Must be real or imag")) ∧
    (∀ (freqs : List (FreqModel nP nU mDim)) (w : List (List (List (Fin mDim → ℚ)))),
      exceptIsOk (Jtvec freqs w) = true →
      ∀ fm ∈ freqs, ∀ src ∈ fm.sources, ∀ rx ∈ src.receiver_list,
        rx.component = "real" ∨ rx.component = "imag") := by
  constructor
  · intro rx acc wr rxs wrest
    refine ⟨fun h1 => ?_, fun h2 => ?_, fun h1 h2 => ?_⟩
    · simp [accumPTv, h1]
    · have : rx.component ≠ "real" := by simp [h2]
      simp [accumPTv, h2, this]
    · simp [accumPTv, h1, h2]
  · intro freqs w hok
    cases hres : Jtvec freqs w with
    | error e => rw [hres] at hok; exact absurd hok (by simp [exceptIsOk])
    | ok jtv => exact Jtvec_loop_ok_valid freqs w 0 jtv hres

/-- Witness for C5: the three branch behaviours on concrete receivers, and
the tag-validity consequence extracted from a completing concrete `Jtvec`
run. -/
theorem C5_sign_convention_and_error_witness :
    (accumPTv 0 [rxW] [wBlk] = accumPTv ((0 : Fin 1 → CQ) + rxW.evalDerivAdj wBlk)
      ([] : List (ReceiverModel 1 1)) ([] : List (Fin 1 → ℚ))) ∧
    (accumPTv 0 [rxI] [wBlk] = accumPTv ((0 : Fin 1 → CQ) + -rxI.evalDerivAdj wBlk)
      ([] : List (ReceiverModel 1 1)) ([] : List (Fin 1 → ℚ))) ∧
    (accumPTv 0 [rxB] [wBlk] = .error "Must be real or imag") ∧
    (rxW.component = "real" ∨ rxW.component = "imag") := by
  refine ⟨((@C5_sign_convention_and_error 1 1 1).1 rxW 0 wBlk [] []).1 rfl,
          ((@C5_sign_convention_and_error 1 1 1).1 rxI 0 wBlk [] []).2.1 rfl,
          ((@C5_sign_convention_and_error 1 1 1).1 rxB 0 wBlk [] []).2.2
            (by simp [rxB]) (by simp [rxB]),
          (@C5_sign_convention_and_error 1 1 1).2 [fmW] [[[wBlk]]] rfl fmW
            (by simp) srcW (by simp [fmW]) rxW (by simp [srcW])⟩

/-- A concrete complex-symmetric 1×1 system matrix `A = [i]`. -/
def A1 : Matrix (Fin 1) (Fin 1) CQ := fun _ _ => ⟨0, 1⟩

/-- Its inverse, `B = A⁻¹ = [-i]`: the cached factorization's action. -/
def B1 : Matrix (Fin 1) (Fin 1) CQ := fun _ _ => ⟨0, -1⟩

/-- A frequency model whose cached factorization solves with `B1`. -/
def fmA1 : FreqModel 1 1 1 :=
  ⟨B1.mulVec, fun _ _ => 0, fun _ _ => 0, fun _ _ => 0, fun _ _ => 0, []⟩

/-- A concrete summed receiver vector. -/
def PTv1 : Fin 1 → CQ := fun _ => 1

/-- C2 (amended): in the `Jtvec` recursion the summed per-receiver vector
is mapped through the cached forward factorization `Ainv[nF]` itself
(line 134); because the system matrix is complex symmetric (`Aᵀ = A`),
this coincides with solving the transposed system `Aᵀ·x = PTv` — the
adjoint solve in the bilinear, non-conjugating sense that the real-part
accumulation requires — but it is not the conjugate-transpose solve. -/
theorem C2_adjoint_solve_is_transposed_system {nP nU mDim : ℕ}
    (fm : FreqModel nP nU mDim) (A B : Matrix (Fin nU) (Fin nU) CQ)
    (hsym : A.transpose = A) (hAinv : fm.Ainv = B.mulVec)
    (hBA : ∀ x, A.mulVec (B.mulVec x) = x) (PTv : Fin nU → CQ) :
    jtvec_dA_duIT fm PTv = B.mulVec PTv ∧
    A.transpose.mulVec (jtvec_dA_duIT fm PTv) = PTv := by
  constructor
  · simp only [jtvec_dA_duIT, hAinv]
  · simp only [jtvec_dA_duIT, hAinv, hsym]
    exact hBA PTv

/-- Witness for C2: the transposed-system property on the concrete system
`A = [i]`, `B = [-i]`. -/
theorem C2_adjoint_solve_is_transposed_system_witness :
    jtvec_dA_duIT fmA1 PTv1 = B1.mulVec PTv1 ∧
    A1.transpose.mulVec (jtvec_dA_duIT fmA1 PTv1) = PTv1 := by
  refine C2_adjoint_solve_is_transposed_system fmA1 A1 B1 ?_ rfl ?_ PTv1
  · funext i j
    rfl
  · intro x
    funext i
    have hi : i = 0 := Subsingleton.elim i 0
    subst hi
    simp [A1, B1, Matrix.mulVec, Matrix.dotProduct, Fin.sum_univ_one]
    ext <;> simp

/-- Counterexample to C2 as stated: at the concrete system `A = [i]` with
cached factorization `B = A⁻¹ = [-i]`, the recursion applies the forward
factorization itself, whose action differs from applying the conjugate
transpose of the cached factorization. -/
theorem C2_counterexample :
    jtvec_dA_duIT fmA1 PTv1 0 = B1.mulVec PTv1 0 ∧
    jtvec_dA_duIT fmA1 PTv1 0 ≠ (conjT B1).mulVec PTv1 0 := by
  constructor
  · rfl
  · have h1 : jtvec_dA_duIT fmA1 PTv1 0 = ⟨0, -1⟩ := by
      simp [jtvec_dA_duIT, fmA1, B1, PTv1, Matrix.mulVec, Matrix.dotProduct, Fin.sum_univ_one]
    have h2 : (conjT B1).mulVec PTv1 0 = ⟨0, 1⟩ := by
      simp [conjT, B1, PTv1, CQ.conj, Matrix.mulVec, Matrix.dotProduct, Fin.sum_univ_one]
    rw [h1, h2]
    intro h
    have him := congrArg CQ.im h
    norm_num at him

/-- Reading back the ids stored in a fully populated slot list. -/
theorem collectSlotIds_map_some :
    ∀ ids : List ℕ, collectSlotIds (ids.map some) ids.length = .ok ids
  | [] => rfl
  | fid :: ids => by
      simp only [List.map_cons, List.length_cons, collectSlotIds,
        collectSlotIds_map_some ids]
      rfl

/-- C3 (amended): for the 3-D simulation, the `Jvec` recursion solves with
exactly the per-frequency factorizations stored by the preceding
`fields(m)` call and factorizes nothing itself (`fields` performs exactly
one factorization per frequency, and the sensitivity loop only reads the
slots); the 1-D variant's `fields`, by contrast, leaves the `Ainv` cache
attribute untouched, so it caches nothing for `Jvec` to reuse. -/
theorem C3_factorization_reuse (nFreq : ℕ) (cleanFails : ℕ → Bool) (m : List ℚ)
    (s : SimState) :
    jvecUsedFactorizations nFreq (fields3DState nFreq cleanFails m s).1 =
      .ok ((List.range nFreq).map (fun i => s.factCount + i + 1)) ∧
    (fields3DState nFreq cleanFails m s).1.factCount = s.factCount + nFreq ∧
    (fields1DState nFreq m s).ainvAttr = s.ainvAttr := by
  refine ⟨?_, rfl, rfl⟩
  show collectSlotIds (((List.range nFreq).map (fun i => s.factCount + i + 1)).map some)
    nFreq = _
  have h := collectSlotIds_map_some ((List.range nFreq).map (fun i => s.factCount + i + 1))
  simpa using h

/-- Counterexample to C3 as stated: from a fresh state, the 1-D `fields`
call performs a factorization (the counter advances) but caches nothing,
so the `Jvec` that follows cannot use "the factorization cached by the
preceding fields(m) call" — its read of the cache attribute fails. -/
theorem C3_counterexample :
    (fields1DState 1 [1] ⟨none, none, 0, 0⟩).factCount = 1 ∧
    (fields1DState 1 [1] ⟨none, none, 0, 0⟩).ainvAttr = none ∧
    jvecUsedFactorizations 1 (fields1DState 1 [1] ⟨none, none, 0, 0⟩) =
      .error "AttributeError: object has no attribute Ainv" :=
  ⟨rfl, rfl, rfl⟩

/-- Bilinear transpose duality of matrix action under the non-conjugating
pairing. -/
theorem dotC_transpose_mulVec {k p : ℕ} (M : Matrix (Fin k) (Fin p) CQ)
    (w : Fin k → CQ) (v : Fin p → CQ) :
    dotC (M.transpose.mulVec w) v = dotC w (M.mulVec v) := by
  simp only [dotC, Matrix.dotProduct, Matrix.mulVec, Matrix.transpose_apply,
    Finset.sum_mul, Finset.mul_sum]
  rw [Finset.sum_comm]
  exact Finset.sum_congr rfl (fun i _ => Finset.sum_congr rfl (fun j _ => by ring))

theorem dotC_smul_left {n : ℕ} (c : CQ) (a b : Fin n → CQ) :
    dotC (fun i => c * a i) b = c * dotC a b := by
  simp only [dotC, Matrix.dotProduct, Finset.mul_sum]
  exact Finset.sum_congr rfl (fun i _ => by ring)

theorem dotC_smul_right {n : ℕ} (c : CQ) (a b : Fin n → CQ) :
    dotC a (fun i => c * b i) = c * dotC a b := by
  simp only [dotC, Matrix.dotProduct, Finset.mul_sum]
  exact Finset.sum_congr rfl (fun i _ => by ring)

/-- A concrete real 1×1 collaborator matrix. -/
def M1 : Matrix (Fin 1) (Fin 1) CQ := fun _ _ => 1

/-- A concrete one-entry complex vector. -/
def cOne : Fin 1 → CQ := fun _ => 1

/-- Identity `MeSigmaDeriv` action pair (a transpose-dual collaborator). -/
def opsId : MeSigmaDerivOps 1 1 := ⟨fun v => v, fun w => w⟩

/-- C4 (amended): in both variants, `getADeriv` applies `iω(f)·d(M_sigma)/dm`
in forward mode and the plain (non-conjugated) transpose of that same
operator in adjoint mode: for the 1-D routine the adjoint action is matrix
multiplication by the transpose of the forward operator matrix, giving the
bilinear duality `⟨adj w, v⟩ = ⟨w, fwd v⟩`; the 3-D routine has the same
duality across its two polarization halves whenever its inherited
`MeSigmaDeriv` collaborator is itself transpose-dual.  (The adjoint is not
the conjugate-transpose action; see the counterexample.) -/
theorem C4_getADeriv_transpose_action {k n p nP nE : ℕ} :
    (∀ (omegaf : ℚ) (meshD : Matrix (Fin k) (Fin n) CQ)
       (sigmaD : Matrix (Fin n) (Fin p) CQ) (v : Fin p → CQ),
      getADeriv1D_fwd omegaf meshD sigmaD v =
        Matrix.mulVec (fun i j => CQ.iOmega omegaf * MfSigmaDeriv meshD sigmaD i j) v) ∧
    (∀ (omegaf : ℚ) (meshD : Matrix (Fin k) (Fin n) CQ)
       (sigmaD : Matrix (Fin n) (Fin p) CQ) (w : Fin k → CQ),
      getADeriv1D_adj omegaf meshD sigmaD w =
        Matrix.mulVec
          (Matrix.transpose (fun i j => CQ.iOmega omegaf * MfSigmaDeriv meshD sigmaD i j)) w) ∧
    (∀ (omegaf : ℚ) (meshD : Matrix (Fin k) (Fin n) CQ)
       (sigmaD : Matrix (Fin n) (Fin p) CQ) (v : Fin p → CQ) (w : Fin k → CQ),
      dotC (getADeriv1D_adj omegaf meshD sigmaD w) v =
        dotC w (getADeriv1D_fwd omegaf meshD sigmaD v)) ∧
    (∀ (omegaf : ℚ) (ops0 ops1 : MeSigmaDerivOps nP nE),
      (∀ w v, dotC (ops0.adj w) v = dotC w (ops0.fwd v)) →
      (∀ w v, dotC (ops1.adj w) v = dotC w (ops1.fwd v)) →
      ∀ (v : Fin nP → CQ) (w0 w1 : Fin nE → CQ),
        dotC (getADeriv3D_adj omegaf ops0 ops1 (w0, w1)) v =
          dotC w0 (getADeriv3D_fwd omegaf ops0 ops1 v).1 +
          dotC w1 (getADeriv3D_fwd omegaf ops0 ops1 v).2) := by
  refine ⟨?_, ?_, ?_, ?_⟩
  · intro omegaf meshD sigmaD v
    funext i
    simp [getADeriv1D_fwd, Matrix.mulVec, Matrix.dotProduct, Finset.mul_sum, mul_assoc]
  · intro omegaf meshD sigmaD w
    funext i
    simp [getADeriv1D_adj, Matrix.mulVec, Matrix.dotProduct, Matrix.transpose_apply,
      Finset.mul_sum, mul_assoc]
  · intro omegaf meshD sigmaD v w
    show dotC (fun i => CQ.iOmega omegaf * (MfSigmaDeriv meshD sigmaD).transpose.mulVec w i) v
        = dotC w (fun i => CQ.iOmega omegaf * (MfSigmaDeriv meshD sigmaD).mulVec v i)
    rw [dotC_smul_left, dotC_transpose_mulVec, dotC_smul_right]
  · intro omegaf ops0 ops1 h0 h1 v w0 w1
    calc dotC (getADeriv3D_adj omegaf ops0 ops1 (w0, w1)) v
        = CQ.iOmega omegaf * (dotC (ops0.adj w0) v + dotC (ops1.adj w1) v) := by
          simp only [getADeriv3D_adj, dotC, Matrix.dotProduct]
          rw [mul_add, Finset.mul_sum, Finset.mul_sum, ← Finset.sum_add_distrib]
          exact Finset.sum_congr rfl (fun i _ => by ring)
      _ = CQ.iOmega omegaf * (dotC w0 (ops0.fwd v) + dotC w1 (ops1.fwd v)) := by
          rw [h0, h1]
      _ = dotC w0 (getADeriv3D_fwd omegaf ops0 ops1 v).1 +
          dotC w1 (getADeriv3D_fwd omegaf ops0 ops1 v).2 := by
          simp only [getADeriv3D_fwd, dotC, Matrix.dotProduct]
          rw [mul_add, Finset.mul_sum, Finset.mul_sum]
          congr 1 <;> exact Finset.sum_congr rfl (fun i _ => by ring)

/-- Witness for C4: the four clauses instantiated on concrete matrices,
vectors and a transpose-dual collaborator pair. -/
theorem C4_getADeriv_transpose_action_witness :
    (getADeriv1D_fwd 1 M1 M1 cOne =
      Matrix.mulVec (fun i j => CQ.iOmega 1 * MfSigmaDeriv M1 M1 i j) cOne) ∧
    (getADeriv1D_adj 1 M1 M1 cOne =
      Matrix.mulVec
        (Matrix.transpose (fun i j => CQ.iOmega 1 * MfSigmaDeriv M1 M1 i j)) cOne) ∧
    (dotC (getADeriv1D_adj 1 M1 M1 cOne) cOne =
      dotC cOne (getADeriv1D_fwd 1 M1 M1 cOne)) ∧
    (dotC (getADeriv3D_adj 1 opsId opsId (cOne, cOne)) cOne =
      dotC cOne (getADeriv3D_fwd 1 opsId opsId cOne).1 +
      dotC cOne (getADeriv3D_fwd 1 opsId opsId cOne).2) :=
  ⟨(@C4_getADeriv_transpose_action 1 1 1 1 1).1 1 M1 M1 cOne,
   (@C4_getADeriv_transpose_action 1 1 1 1 1).2.1 1 M1 M1 cOne,
   (@C4_getADeriv_transpose_action 1 1 1 1 1).2.2.1 1 M1 M1 cOne cOne,
   (@C4_getADeriv_transpose_action 1 1 1 1 1).2.2.2 1 opsId opsId
     (fun _ _ => rfl) (fun _ _ => rfl) cOne cOne cOne⟩

/-- Counterexample to C4 as stated: on the concrete real collaborator
matrix, the adjoint mode of the 1-D `getADeriv` (which multiplies by
`iω·dMᵀ`) differs from the conjugate-transpose action of the forward
operator at the same input. -/
theorem C4_counterexample :
    getADeriv1D_adj 1 M1 M1 cOne 0 ≠ specConjTransposeAction 1 M1 M1 cOne 0 := by
  intro h
  have him := congrArg CQ.im h
  simp [getADeriv1D_adj, specConjTransposeAction, conjT, CQ.conj, M1, cOne, MfSigmaDeriv,
    Matrix.mulVec, Matrix.dotProduct, Matrix.mul_apply, Matrix.transpose_apply,
    Fin.sum_univ_one] at him
  norm_num at him

/-- When no `clean` fails, the release loop frees every held factorization
in order. -/
theorem tryCleanSlots_all_ok (cf : ℕ → Bool) :
    ∀ ids : List ℕ, (∀ i ∈ ids, cf i = false) →
    tryCleanSlots cf (ids.map some) = (ids, none)
  | [], _ => rfl
  | id0 :: rest, h => by
      have h0 : cf id0 = false := h id0 (by simp)
      simp [tryCleanSlots, h0,
        tryCleanSlots_all_ok cf rest (fun i hi => h i (by simp [hi]))]

/-- When some `clean` fails, the loop raises (and the code swallows) an
exception. -/
theorem tryCleanSlots_failure (cf : ℕ → Bool) :
    ∀ ids : List ℕ, (∃ i ∈ ids, cf i = true) →
    (tryCleanSlots cf (ids.map some)).2 ≠ none
  | [], h => by simp at h
  | id0 :: rest, h => by
      by_cases h0 : cf id0 = true
      · simp [tryCleanSlots, h0]
      · have hrest : ∃ i ∈ rest, cf i = true := by
          rcases h with ⟨i, hi, hci⟩
          rcases List.mem_cons.mp hi with rfl | hm
          · exact absurd hci h0
          · exact ⟨i, hm, hci⟩
        have hr := tryCleanSlots_failure cf rest hrest
        simpa [tryCleanSlots, h0] using hr

/-- C6 (amended): when `fields(m)` runs with factorizations held from the
previous model, it attempts to release them before reassigning the slots;
if every release succeeds they are all freed in order, but if any `clean`
raises, the exception is swallowed by the `try/except: pass` — the call
still completes and the slots are reassigned regardless, so release
failures are silently discarded, not propagated to the caller. -/
theorem C6_release_attempted_failures_swallowed (nFreq : ℕ) (cf : ℕ → Bool)
    (m : List ℚ) (s : SimState) (ids : List ℕ)
    (h : s.ainvAttr = some (ids.map some)) (hne : ids ≠ []) :
    ((fields3DState nFreq cf m s).1.ainvAttr =
      some (((List.range nFreq).map (fun i => s.factCount + i + 1)).map some)) ∧
    ((∀ i ∈ ids, cf i = false) → (fields3DState nFreq cf m s).2 = (ids, none)) ∧
    ((∃ i ∈ ids, cf i = true) →
      (fields3DState nFreq cf m s).2.2 ≠ none ∧
      (fields3DState nFreq cf m s).1.fieldsCalls = s.fieldsCalls + 1) := by
  obtain ⟨id0, rest, rfl⟩ := List.exists_cons_of_ne_nil hne
  refine ⟨rfl, fun hok => ?_, fun hfail => ⟨?_, rfl⟩⟩
  · show tryCleanAinv cf s.ainvAttr = (id0 :: rest, none)
    rw [h]
    exact tryCleanSlots_all_ok cf (id0 :: rest) hok
  · show (tryCleanAinv cf s.ainvAttr).2 ≠ none
    rw [h]
    exact tryCleanSlots_failure cf (id0 :: rest) hfail

/-- Witness for C6: the release/reassignment behaviour on a concrete state
holding two factorizations, with no failing release. -/
theorem C6_release_attempted_failures_swallowed_witness :
    ((fields3DState 1 (fun _ => false) [1] ⟨none, some [some 5, some 7], 9, 0⟩).1.ainvAttr =
      some (((List.range 1).map (fun i => 9 + i + 1)).map some)) ∧
    ((fields3DState 1 (fun _ => false) [1] ⟨none, some [some 5, some 7], 9, 0⟩).2 =
      ([5, 7], none)) := by
  have h := C6_release_attempted_failures_swallowed 1 (fun _ => false) [1]
    ⟨none, some [some 5, some 7], 9, 0⟩ [5, 7] rfl (by simp)
  exact ⟨h.1, h.2.1 (fun i _ => rfl)⟩

/-- Counterexample to C6 as stated: with a failing release of the held
factorization, `fields` completes normally — the failure is swallowed, the
factorization is never freed, and the slots are reassigned anyway; nothing
propagates to the caller. -/
theorem C6_counterexample :
    (fields3DState 1 (fun _ => true) [1] ⟨none, some [some 1], 5, 0⟩).2 =
      ([], some "clean failed") ∧
    (fields3DState 1 (fun _ => true) [1] ⟨none, some [some 1], 5, 0⟩).1.fieldsCalls = 1 ∧
    (fields3DState 1 (fun _ => true) [1] ⟨none, some [some 1], 5, 0⟩).1.ainvAttr =
      some [some 6] :=
  ⟨rfl, rfl, rfl⟩

/-- C7: with no precomputed fields argument, the shared entry sequence of
`Jvec` and `Jtvec` first performs a full forward solve `fields(m)` (for
either simulation variant) and sets the simulation's current model to `m`,
so no explicit prior `fields()` call is needed. -/
theorem C7_entry_triggers_forward_solve (nFreq : ℕ) (cf : ℕ → Bool) (m : List ℚ)
    (s : SimState) :
    ((sensitivityEntry (fields1DState nFreq) m false s).model = some m ∧
     (sensitivityEntry (fields1DState nFreq) m false s).fieldsCalls =
       s.fieldsCalls + 1) ∧
    ((sensitivityEntry (fun m0 s0 => (fields3DState nFreq cf m0 s0).1) m false s).model =
       some m ∧
     (sensitivityEntry (fun m0 s0 => (fields3DState nFreq cf m0 s0).1) m false s).fieldsCalls =
       s.fieldsCalls + 1) :=
  ⟨⟨rfl, rfl⟩, ⟨rfl, rfl⟩⟩

/-- C8 (amended): with `k = None`, `getJtJdiag` uses
`k = int(nD / 10) = ⌊nD / 10⌋` probe vectors — which is `0`, not at least
`1`, for any survey with fewer than ten data. -/
theorem C8_default_probe_count (nD : ℕ) :
    getJtJdiagK nD none = nD / 10 ∧ (nD < 10 → getJtJdiagK nD none = 0) :=
  ⟨rfl, fun h => by simp [getJtJdiagK, Nat.div_eq_of_lt h]⟩

/-- Witness for C8: a five-datum survey defaults to zero probe vectors. -/
theorem C8_default_probe_count_witness :
    getJtJdiagK 5 none = 5 / 10 ∧ getJtJdiagK 5 none = 0 :=
  ⟨(C8_default_probe_count 5).1, (C8_default_probe_count 5).2 (by decide)⟩

/-- Counterexample to C8 as stated: at `nD = 5` the default probe count is
`0`, not at least `1`. -/
theorem C8_counterexample :
    getJtJdiagK 5 none = 0 ∧ ¬(1 ≤ getJtJdiagK 5 none) := by decide

/-- Every entry is bounded by the running maximum. -/
theorem le_listMax : ∀ (xs : List ℚ) (x : ℚ), x ∈ xs → x ≤ listMax xs
  | [], x, h => absurd h (by simp)
  | [a], x, h => by
      rcases List.mem_singleton.mp h with rfl
      exact le_refl _
  | a :: b :: rest, x, h => by
      rcases List.mem_cons.mp h with rfl | hm
      · show x ≤ max x (listMax (b :: rest))
        exact le_max_left _ _
      · show x ≤ max a (listMax (b :: rest))
        exact le_trans (le_listMax (b :: rest) x hm) (le_max_right _ _)

/-- Dividing every entry by a positive scalar divides the maximum. -/
theorem listMax_map_div (M : ℚ) (hM : 0 < M) :
    ∀ xs : List ℚ, listMax (xs.map (fun x => x / M)) = listMax xs / M
  | [] => by simp [listMax]
  | [a] => by simp [listMax]
  | a :: b :: rest => by
      show max (a / M) (listMax ((b :: rest).map (fun x => x / M))) =
        max a (listMax (b :: rest)) / M
      rw [listMax_map_div M hM (b :: rest), max_div_div_right (le_of_lt hM)]

/-- C9 (amended): whenever the raw diagonal estimate has a positive
maximum, dividing by that maximum yields a vector whose maximum entry is
exactly `1` and whose entries are all at most `1`; entries are, however,
not bounded below by `-1` (see the counterexample), and for a nonpositive
maximum even the maximum-is-one property fails. -/
theorem C9_normalized_diag_estimate (xs : List ℚ) (hpos : 0 < listMax xs) :
    listMax (normalizeJtJdiag xs) = 1 ∧ ∀ y ∈ normalizeJtJdiag xs, y ≤ 1 := by
  constructor
  · rw [normalizeJtJdiag, listMax_map_div (listMax xs) hpos xs]
    exact div_self (ne_of_gt hpos)
  · intro y hy
    rcases List.mem_map.mp hy with ⟨x, hx, rfl⟩
    exact (div_le_one hpos).mpr (le_listMax xs x hx)

/-- Witness for C9: the normalization of a concrete positive estimate. -/
theorem C9_normalized_diag_estimate_witness :
    listMax (normalizeJtJdiag [1, 2, 4]) = 1 ∧ (2 : ℚ) / 4 ≤ 1 := by
  have hm : listMax [(1 : ℚ), 2, 4] = 4 := by
    show max (1 : ℚ) (max 2 4) = 4
    rw [max_eq_right (by norm_num : (2 : ℚ) ≤ 4), max_eq_right (by norm_num : (1 : ℚ) ≤ 4)]
  have h := C9_normalized_diag_estimate [1, 2, 4] (by rw [hm]; norm_num)
  refine ⟨h.1, h.2 ((2 : ℚ) / 4) ?_⟩
  simp [normalizeJtJdiag, hm]

/-- Counterexample to C9 as stated: the estimate `[-5, 1]` normalizes to
`[-5, 1]`, which contains the entry `-5 < -1` — the result is not confined
to `[-1, 1]`. -/
theorem C9_counterexample :
    normalizeJtJdiag [-5, 1] = [-5, 1] ∧
    (-5 : ℚ) ∈ normalizeJtJdiag [-5, 1] ∧ ¬((-1 : ℚ) ≤ -5) := by
  have hm : listMax [(-5 : ℚ), 1] = 1 := by
    show max (-5 : ℚ) 1 = 1
    rw [max_eq_right (by norm_num : (-5 : ℚ) ≤ 1)]
  refine ⟨?_, ?_, by norm_num⟩
  · simp [normalizeJtJdiag, hm]
  · simp [normalizeJtJdiag, hm]

/-- Folding full-length contributions into the accumulator succeeds and
preserves its length. -/
theorem foldAddInto_ok :
    ∀ (contribs : List (List CQ)) (acc : List CQ),
    (∀ c ∈ contribs, c.length = acc.length) →
    ∃ res, List.foldlM addInto acc contribs = .ok res ∧ res.length = acc.length
  | [], acc, _ => ⟨acc, rfl, rfl⟩
  | c :: cs, acc, h => by
      have hc : c.length = acc.length := h c (by simp)
      have hz : (List.zipWith (fun a b => a + b) acc c).length = acc.length := by
        simp [List.length_zipWith, hc]
      obtain ⟨res, hres, hlen⟩ := foldAddInto_ok cs (List.zipWith (fun a b => a + b) acc c)
        (fun d hd => by rw [h d (by simp [hd]), hz])
      refine ⟨res, ?_, hlen.trans hz⟩
      have ha : addInto acc c = .ok (List.zipWith (fun a b => a + b) acc c) := by
        simp [addInto, hc]
      calc List.foldlM addInto acc (c :: cs)
          = addInto acc c >>= fun a2 => List.foldlM addInto a2 cs := rfl
        _ = .ok res := by rw [ha]; exact hres

/-- C10: the shared `Jtvec` recursion allocates a complex accumulator of
`nE * 2` entries (two polarizations on mesh edges) for every source,
accumulation succeeds exactly for contributions of that 3-D edge shape,
and a single-polarization contribution of any other length (such as the
1-D nodal field space) makes the accumulation fail — the recursion is
dimensionally valid only for the 3-D edge formulation. -/
theorem C10_accumulator_is_3D_shaped :
    (∀ nE : ℕ, (jtvecAccumInit nE).length = nE * 2) ∧
    (∀ (nE : ℕ) (contribs : List (List CQ)),
      (∀ c ∈ contribs, c.length = nE * 2) →
      ∃ acc, jtvecAccumShapes nE contribs = .ok acc ∧ acc.length = nE * 2) ∧
    (∀ (nE : ℕ) (c : List CQ) (cs : List (List CQ)),
      c.length ≠ nE * 2 →
      jtvecAccumShapes nE (c :: cs) =
        .error "operands could not be broadcast together") := by
  refine ⟨fun nE => by simp [jtvecAccumInit], ?_, ?_⟩
  · intro nE contribs h
    have hlen : (jtvecAccumInit nE).length = nE * 2 := by simp [jtvecAccumInit]
    obtain ⟨res, hres, hl⟩ := foldAddInto_ok contribs (jtvecAccumInit nE)
      (fun c hc => by rw [h c hc, hlen])
    exact ⟨res, hres, by rw [hl, hlen]⟩
  · intro nE c cs h
    have ha : addInto (jtvecAccumInit nE) c =
        .error "operands could not be broadcast together" := by
      simp [addInto, jtvecAccumInit, h]
    calc jtvecAccumShapes nE (c :: cs)
        = addInto (jtvecAccumInit nE) c >>= fun a2 => List.foldlM addInto a2 cs := rfl
      _ = .error "operands could not be broadcast together" := by rw [ha]; rfl

/-- Witness for C10: with three mesh edges, a six-entry (two-polarization)
contribution accumulates, a four-entry single-polarization contribution is
a shape error. -/
theorem C10_accumulator_is_3D_shaped_witness :
    (jtvecAccumInit 3).length = 3 * 2 ∧
    (∃ acc, jtvecAccumShapes 3 [List.replicate 6 (0 : CQ)] = .ok acc ∧
      acc.length = 3 * 2) ∧
    jtvecAccumShapes 3 [List.replicate 4 (0 : CQ)] =
      .error "operands could not be broadcast together" :=
  ⟨C10_accumulator_is_3D_shaped.1 3,
   C10_accumulator_is_3D_shaped.2.1 3 [List.replicate 6 0] (by simp),
   C10_accumulator_is_3D_shaped.2.2 3 (List.replicate 4 0) [] (by simp)⟩
